import Mathlib

/-
Verification development for the DeepPoly verifier repository.

The engine is embedded shallowly over exact rationals: every torch tensor of
shape (batch, out, in) with batch = 1 becomes a function `Fin out → Fin in → ℚ`,
and tensors of shape (batch, out) become `Fin out → ℚ`.  Python floats are
modelled as the rational numbers their source text denotes.  The relevant
source files are src/src/transformers.py (Polygon, FlattenTransformer,
LinearTransformer, ReLUTransformer) and the two variants of verifier.py
(the margin layer construction, the layer-dispatch loop and the two `train`
loops).  The effect of one `optimizer.step()` on the trainable parameters is
outside the embedded fragment; the lower bounds produced by the forward pass
at each epoch are therefore supplied by an oracle `ℕ → Fin d → ℚ`, which is
exactly the interface the control-flow claims about `train` quantify over.
-/

/-- Vectors over ℚ, indexed by `Fin n`; models a torch tensor of shape (1, n). -/
abbrev QVec (n : ℕ) := Fin n → ℚ

/-- Matrices over ℚ; models a torch tensor of shape (1, m, n). -/
abbrev QMat (m n : ℕ) := Fin m → Fin n → ℚ

/-- torch.clamp(c, min=0): the non-negative part of a coefficient. -/
def clampMin0 (c : ℚ) : ℚ := max c 0

/-- torch.clamp(c, max=0): the non-positive part of a coefficient. -/
def clampMax0 (c : ℚ) : ℚ := min c 0

/-- torch.clamp(x, min=0, max=1), used by Polygon.create_from_input. -/
def clamp01 (x : ℚ) : ℚ := min (max x 0) 1

/-- The parent chain of Polygon objects from src/src/transformers.py.  A
Polygon created with parent=None (the input box from create_from_input) is a
`root` carrying its bias vectors; its coefficient matrices have zero width, so
they are not stored.  Every other Polygon is a `node` carrying the four
tensors passed to Polygon.__init__ plus the parent reference. -/
inductive Polygon : ℕ → Type where
  | root {n : ℕ} (l_bias u_bias : QVec n) : Polygon n
  | node {n p : ℕ} (l_coefs u_coefs : QMat n p) (l_bias u_bias : QVec n)
      (parent : Polygon p) : Polygon n

/-- The while-loop of Polygon.__init__ (src/src/transformers.py lines 45-75).
Each iteration replaces the running coefficient matrices and bias vectors by
their substitution through the current parent; when the parent is the root its
zero-width coefficient matrices end the chain and the accumulated bias vectors
are the bounds.  Lower coefficients: clamp(l,min=0) @ parent.l_coefs +
clamp(l,max=0) @ parent.u_coefs; upper symmetrically; biases add the same
sign-split applied to the parent's bias vectors. -/
def backsubLoop : {n p : ℕ} → QMat n p → QMat n p → QVec n → QVec n →
    Polygon p → QVec n × QVec n
  | _, _, l_coefs, u_coefs, l_bias, u_bias, Polygon.root pl pu =>
      (fun i => l_bias i + ∑ j, (clampMin0 (l_coefs i j) * pl j + clampMax0 (l_coefs i j) * pu j),
       fun i => u_bias i + ∑ j, (clampMin0 (u_coefs i j) * pu j + clampMax0 (u_coefs i j) * pl j))
  | _, _, l_coefs, u_coefs, l_bias, u_bias, Polygon.node plc puc plb pub pp =>
      backsubLoop
        (fun i k => ∑ j, (clampMin0 (l_coefs i j) * plc j k + clampMax0 (l_coefs i j) * puc j k))
        (fun i k => ∑ j, (clampMin0 (u_coefs i j) * puc j k + clampMax0 (u_coefs i j) * plc j k))
        (fun i => l_bias i + ∑ j, (clampMin0 (l_coefs i j) * plb j + clampMax0 (l_coefs i j) * pub j))
        (fun i => u_bias i + ∑ j, (clampMin0 (u_coefs i j) * pub j + clampMax0 (u_coefs i j) * plb j))
        pp

/-- The concrete bounds (l_bound, u_bound) stored by Polygon.__init__: for a
root Polygon the loop runs zero times and the bounds are the biases; otherwise
the repeated back-substitution down the parent chain. -/
def Polygon.bounds : {n : ℕ} → Polygon n → QVec n × QVec n
  | _, .root l u => (l, u)
  | _, .node lc uc lb ub parent => backsubLoop lc uc lb ub parent

/-- The concretized lower-bound vector l_bound of a Polygon. -/
def Polygon.lBound {n : ℕ} (P : Polygon n) : QVec n := P.bounds.1

/-- The concretized upper-bound vector u_bound of a Polygon. -/
def Polygon.uBound {n : ℕ} (P : Polygon n) : QVec n := P.bounds.2

/-- Polygon.create_from_input: the root input box with biases
clamp(input - eps, 0, 1) and clamp(input + eps, 0, 1). -/
def Polygon.create_from_input {n : ℕ} (input : QVec n) (eps : ℚ) : Polygon n :=
  .root (fun i => clamp01 (input i - eps)) (fun i => clamp01 (input i + eps))

/-- Concretization of a Polygon chain: `P.Models v` says that `v` is a vector
of concrete activations of the layer outputting `P` reachable from some choice
of concrete activations of every ancestor layer that satisfies, at each link,
the symbolic lower/upper constraints of that link, down to the interval
constraints of the root input box. -/
def Polygon.Models : {n : ℕ} → Polygon n → QVec n → Prop
  | _, .root l u, v => ∀ i, l i ≤ v i ∧ v i ≤ u i
  | _, .node lc uc lb ub parent, v =>
      ∃ w, parent.Models w ∧
        ∀ i, (∑ j, lc i j * w j) + lb i ≤ v i ∧ v i ≤ (∑ j, uc i j * w j) + ub i

/-- FlattenTransformer.forward: the identity on the abstract value. -/
def FlattenTransformer.forward {n : ℕ} (x : Polygon n) : Polygon n := x

/-- LinearTransformer.forward: both coefficient matrices are the weight
matrix, both biases the bias vector, parent is the input Polygon. -/
def LinearTransformer.forward {m n : ℕ} (weight : QMat m n) (bias : QVec m)
    (x : Polygon n) : Polygon m :=
  Polygon.node weight weight bias bias x

/-- The crossing mask of ReLUTransformer.forward:
is_crossing = not (is_always_negative or is_always_positive). -/
abbrev isCrossing {n : ℕ} (lb ub : QVec n) (i : Fin n) : Prop :=
  ¬(ub i ≤ 0 ∨ 0 ≤ lb i)

/-- The slope computed in relu_I and relu_II:
u_bound / (u_bound - l_bound), per crossing neuron. -/
def reluSlope {n : ℕ} (lb ub : QVec n) (i : Fin n) : ℚ :=
  ub i / (ub i - lb i)

/-- l_coefs after the is_always_negative and is_always_positive writes in
ReLUTransformer.forward: initialized to zeros, rows with u_bound ≤ 0 written
to 0, then rows with l_bound ≥ 0 overwritten with the identity (the later
write wins, which matters when l_bound = u_bound = 0). -/
def relu_lc_masks {n : ℕ} (lb ub : QVec n) : QMat n n := fun i j =>
  if 0 ≤ lb i then (if i = j then 1 else 0)
  else if ub i ≤ 0 then 0
  else 0

/-- l_coefs after relu_I: the crossing rows are clipped to 0 (Variant A lower
bound y ≥ 0 for ReLU). -/
def relu_lc_I {n : ℕ} (lb ub : QVec n) : QMat n n := fun i j =>
  if isCrossing lb ub i then 0 else relu_lc_masks lb ub i j

/-- l_coefs after relu_II, which mutates the same tensor relu_I returned: the
crossing rows are overwritten with the identity (Variant B lower bound y ≥ x). -/
def relu_lc_II {n : ℕ} (lb ub : QVec n) : QMat n n := fun i j =>
  if isCrossing lb ub i then (if i = j then 1 else 0) else relu_lc_I lb ub i j

/-- The l_coefs of the Polygon built by ReLUTransformer.forward.  Because
relu_I and relu_II mutate the same tensors in place, poly_I and poly_II alias
the same objects when torch.where selects between them, so the selection
returns the state left by relu_II for every neuron. -/
def relu_l_coefs {n : ℕ} (lb ub : QVec n) : QMat n n := relu_lc_II lb ub

/-- u_coefs after the two mask writes (same values as the lower side). -/
def relu_uc_masks {n : ℕ} (lb ub : QVec n) : QMat n n := fun i j =>
  if 0 ≤ lb i then (if i = j then 1 else 0)
  else if ub i ≤ 0 then 0
  else 0

/-- u_coefs after relu_I: crossing rows become eye-row times the slope. -/
def relu_uc_I {n : ℕ} (lb ub : QVec n) : QMat n n := fun i j =>
  if isCrossing lb ub i then (if i = j then 1 else 0) * reluSlope lb ub i
  else relu_uc_masks lb ub i j

/-- u_coefs after relu_II: the identical write is performed again on the same
tensor. -/
def relu_uc_II {n : ℕ} (lb ub : QVec n) : QMat n n := fun i j =>
  if isCrossing lb ub i then (if i = j then 1 else 0) * reluSlope lb ub i
  else relu_uc_I lb ub i j

/-- The u_coefs of the Polygon built by ReLUTransformer.forward. -/
def relu_u_coefs {n : ℕ} (lb ub : QVec n) : QMat n n := relu_uc_II lb ub

/-- l_bias after the mask writes: zero everywhere it was touched (and it was
initialized to zeros). -/
def relu_lb_masks {n : ℕ} (lb ub : QVec n) : QVec n := fun i =>
  if 0 ≤ lb i then 0
  else if ub i ≤ 0 then 0
  else 0

/-- l_bias after relu_I: crossing entries set to 0. -/
def relu_lb_I {n : ℕ} (lb ub : QVec n) : QVec n := fun i =>
  if isCrossing lb ub i then 0 else relu_lb_masks lb ub i

/-- l_bias after relu_II: crossing entries set to 0 again. -/
def relu_lb_II {n : ℕ} (lb ub : QVec n) : QVec n := fun i =>
  if isCrossing lb ub i then 0 else relu_lb_I lb ub i

/-- The l_bias of the Polygon built by ReLUTransformer.forward. -/
def relu_l_bias {n : ℕ} (lb ub : QVec n) : QVec n := relu_lb_II lb ub

/-- u_bias after the mask writes. -/
def relu_ub_masks {n : ℕ} (lb ub : QVec n) : QVec n := fun i =>
  if 0 ≤ lb i then 0
  else if ub i ≤ 0 then 0
  else 0

/-- u_bias after relu_I: crossing entries become -slope * l_bound. -/
def relu_ub_I {n : ℕ} (lb ub : QVec n) : QVec n := fun i =>
  if isCrossing lb ub i then -(reluSlope lb ub i) * lb i else relu_ub_masks lb ub i

/-- u_bias after relu_II: the identical write again. -/
def relu_ub_II {n : ℕ} (lb ub : QVec n) : QVec n := fun i =>
  if isCrossing lb ub i then -(reluSlope lb ub i) * lb i else relu_ub_I lb ub i

/-- The u_bias of the Polygon built by ReLUTransformer.forward. -/
def relu_u_bias {n : ℕ} (lb ub : QVec n) : QVec n := relu_ub_II lb ub

/-- ReLUTransformer.forward: evaluates the input bounds, performs the mask
writes, relu_I, relu_II and the torch.where selection (which, the tensors
being aliased, keeps the relu_II state), and wraps the result in a new Polygon
with parent x. -/
def ReLUTransformer.forward {n : ℕ} (x : Polygon n) : Polygon n :=
  Polygon.node (relu_l_coefs x.lBound x.uBound) (relu_u_coefs x.lBound x.uBound)
    (relu_l_bias x.lBound x.uBound) (relu_u_bias x.lBound x.uBound) x

/-- A chain of the transformer kinds defined in src/src/transformers.py,
indexed by input and output dimension. -/
inductive Net : ℕ → ℕ → Type where
  | nil {n : ℕ} : Net n n
  | flatten {n k : ℕ} (rest : Net n k) : Net n k
  | linear {n m k : ℕ} (weight : QMat m n) (bias : QVec m) (rest : Net m k) : Net n k
  | relu {n k : ℕ} (rest : Net n k) : Net n k

/-- The exact concrete forward pass of the network a Net mirrors. -/
def Net.run : {n k : ℕ} → Net n k → QVec n → QVec k
  | _, _, .nil, v => v
  | _, _, .flatten rest, v => rest.run v
  | _, _, .linear W b rest, v => rest.run (fun i => (∑ j, W i j * v j) + b i)
  | _, _, .relu rest, v => rest.run (fun i => max (v i) 0)

/-- The abstract forward pass: each layer's transformer applied in sequence,
as nn.Sequential does with Polygon values. -/
def Net.transform : {n k : ℕ} → Net n k → Polygon n → Polygon k
  | _, _, .nil, x => x
  | _, _, .flatten rest, x => rest.transform (FlattenTransformer.forward x)
  | _, _, .linear W b rest, x => rest.transform (LinearTransformer.forward W b x)
  | _, _, .relu rest, x => rest.transform (ReLUTransformer.forward x)

/-- The rows of -torch.eye(n_classes): row j is minus the j-th unit vector. -/
def negEyeRows (c : ℕ) : List (QVec c) :=
  (List.finRange c).map (fun j => fun i => if i = j then (-1 : ℚ) else 0)

/-- The weight matrix of the synthetic final layer built in analyze
(both verifier.py variants): -torch.eye(n_classes) with the true_label row
removed by torch.cat, then the true_label column overwritten with 1.0.
Rows are kept as a list because the row count c - 1 is derived, not given. -/
def finalLayerWeights (c t : ℕ) : List (QVec c) :=
  (((negEyeRows c).take t) ++ ((negEyeRows c).drop (t + 1))).map
    (fun row => fun i => if (i : ℕ) = t then 1 else row i)

/-- The bias of the synthetic final layer: final_layer.bias.data[:] = 0.0. -/
def finalLayerBias (c t : ℕ) : QVec (c - 1) := fun _ => 0

/-- The loss of one iteration: lower_bounds.clamp(max=0).abs().sum(). -/
def lossOf {d : ℕ} (lb : QVec d) : ℚ := ∑ i, |min (lb i) 0|

/-- Appending to a collections.deque with the given maxlen: the new element
goes on the right and elements are evicted from the left beyond capacity. -/
def wpush (cap : ℕ) (w : List Bool) (b : Bool) : List Bool :=
  ((w ++ [b]).drop ((w ++ [b]).length - cap))

/-- The loop guard `max_epochs is None or epoch <= max_epochs` of train. -/
def whileCond (maxEpochs : Option ℕ) (epoch : ℕ) : Prop :=
  match maxEpochs with
  | none => True
  | some M => epoch ≤ M

instance (maxEpochs : Option ℕ) (epoch : ℕ) : Decidable (whileCond maxEpochs epoch) :=
  match maxEpochs with
  | none => isTrue trivial
  | some _ => inferInstanceAs (Decidable (_ ≤ _))

/-- The early-stopping test of the src/code/verifier.py train loop:
`early_stopping is not None and number_of_rising >= early_stopping`. -/
def esStop : Option ℕ → ℕ → Prop
  | some k, cnt => k ≤ cnt
  | none, _ => False

instance : (es : Option ℕ) → (cnt : ℕ) → Decidable (esStop es cnt)
  | some _, _ => inferInstanceAs (Decidable (_ ≤ _))
  | none, _ => isFalse (fun h => h)

/-- The flag appended to loss_rising each iteration:
`previous_loss is not None and loss.item() >= previous_loss.item()`. -/
def risingFlag (prev : Option ℚ) (loss : ℚ) : Bool :=
  match prev with
  | none => false
  | some p => decide (p ≤ loss)

/-- The learning-rate floor 1e-4 from src/code/verifier.py, the rational the
source literal denotes. -/
def lrFloor : ℚ := 1 / 10000

/-- The learning-rate update of one iteration of the src/code/verifier.py
train loop: when lr_scheduling is configured, at least that many rising flags
are in the window and the last flag is set, the rate becomes
max(lr / 2, 1e-4); otherwise it is unchanged.  Caveat: with lr_scheduling = 0
and an early-stopping threshold that is absent or 0, the deque has maxlen 0
and stays empty, so the Python access loss_rising[-1] raises IndexError at
epoch 1 and train never returns; this function models that read as false, and
only that configuration can observe the difference, so every theorem below
about a run that reaches the learning-rate line keeps lr_scheduling = 0 with
an empty window out of its hypotheses. -/
def lrStep : Option ℕ → ℕ → Bool → ℚ → ℚ
  | some m, cnt, latest, lr => if m ≤ cnt ∧ latest = true then max (lr / 2) lrFloor else lr
  | none, _, _, lr => lr

/-- The mutable state of the src/code/verifier.py train loop between
iterations: the epoch counter, previous_loss, the loss_rising deque and the
optimizer's learning rate. -/
structure TrainState where
  epoch : ℕ
  prevLoss : Option ℚ
  window : List Bool
  lr : ℚ

/-- One execution of the src/code/verifier.py train loop from a given state.
`oracle e` is the vector of concrete lower bounds of the margins produced by
forwarding the Polygon chain at epoch e (the parameters mutated by
optimizer.step between iterations are summarized by the epoch index);
`trainable` is whether polygon_model has parameters.  `fuel` bounds the
number of loop steps the execution is unrolled for; `none` means the
execution was not finished within `fuel` steps (the Python loop with
max_epochs = None can run forever). -/
def trainGo {d : ℕ} (oracle : ℕ → QVec d) (trainable : Bool)
    (maxEpochs es ls : Option ℕ) (cap : ℕ) : ℕ → TrainState → Option (Bool × ℕ)
  | 0, _ => none
  | fuel + 1, s =>
    if whileCond maxEpochs s.epoch then
      if ∀ i, 0 < oracle s.epoch i then some (true, s.epoch)
      else if trainable = false then some (false, s.epoch)
      else
        let loss := lossOf (oracle s.epoch)
        let w := wpush cap s.window (risingFlag s.prevLoss loss)
        let cnt := w.count true
        let lr2 := lrStep ls cnt (w.getLastD false) s.lr
        if esStop es cnt then some (false, s.epoch)
        else trainGo oracle trainable maxEpochs es ls cap fuel
          ⟨s.epoch + 1, some loss, w, lr2⟩
    else some (false, s.epoch)

/-- train of src/code/verifier.py: initial epoch 1, no previous loss, an
empty deque with maxlen 2 * max(early_stopping or 0, lr_scheduling or 0), and
the SGD learning rate 5.0. -/
def train {d : ℕ} (oracle : ℕ → QVec d) (trainable : Bool)
    (maxEpochs es ls : Option ℕ) (fuel : ℕ) : Option (Bool × ℕ) :=
  trainGo oracle trainable maxEpochs es ls (2 * max (es.getD 0) (ls.getD 0)) fuel
    ⟨1, none, [], 5⟩

/-- Modelled from the spec: the early-stopping test stops "once at least k
flags are set and the latest iteration's loss did not improve" — the same
count test as the code plus the conjunct on the latest flag. -/
def esStopSpec : Option ℕ → ℕ → Bool → Prop
  | some k, cnt, latest => k ≤ cnt ∧ latest = true
  | none, _, _ => False

instance : (es : Option ℕ) → (cnt : ℕ) → (latest : Bool) → Decidable (esStopSpec es cnt latest)
  | some _, _, _ => inferInstanceAs (Decidable (_ ∧ _))
  | none, _, _ => isFalse (fun h => h)

/-- Modelled from the spec: the train loop with the spec's early-stopping
condition substituted for the code's; every other step is identical. -/
def trainSpecGo {d : ℕ} (oracle : ℕ → QVec d) (trainable : Bool)
    (maxEpochs es ls : Option ℕ) (cap : ℕ) : ℕ → TrainState → Option (Bool × ℕ)
  | 0, _ => none
  | fuel + 1, s =>
    if whileCond maxEpochs s.epoch then
      if ∀ i, 0 < oracle s.epoch i then some (true, s.epoch)
      else if trainable = false then some (false, s.epoch)
      else
        let loss := lossOf (oracle s.epoch)
        let w := wpush cap s.window (risingFlag s.prevLoss loss)
        let cnt := w.count true
        let lr2 := lrStep ls cnt (w.getLastD false) s.lr
        if esStopSpec es cnt (w.getLastD false) then some (false, s.epoch)
        else trainSpecGo oracle trainable maxEpochs es ls cap fuel
          ⟨s.epoch + 1, some loss, w, lr2⟩
    else some (false, s.epoch)

/-- Modelled from the spec: the wrapper for `trainSpecGo`, with the same
initial state as `train`. -/
def trainSpec {d : ℕ} (oracle : ℕ → QVec d) (trainable : Bool)
    (maxEpochs es ls : Option ℕ) (fuel : ℕ) : Option (Bool × ℕ) :=
  trainSpecGo oracle trainable maxEpochs es ls (2 * max (es.getD 0) (ls.getD 0)) fuel
    ⟨1, none, [], 5⟩

/-- The early-stopping test of the src/src/verifier.py train loop:
`previous_loss is not None and loss >= previous_loss`. -/
def prevRise (prev : Option ℚ) (loss : ℚ) : Prop :=
  match prev with
  | none => False
  | some p => p ≤ loss

instance : (prev : Option ℚ) → (loss : ℚ) → Decidable (prevRise prev loss)
  | some _, _ => inferInstanceAs (Decidable (_ ≤ _))
  | none, _ => isFalse (fun h => h)

/-- One execution of the src/src/verifier.py train loop (boolean
early_stopping; previous_loss is only compared and updated when
early_stopping is on). -/
def trainSrcGo {d : ℕ} (oracle : ℕ → QVec d) (trainable : Bool)
    (maxEpochs : Option ℕ) (es : Bool) : ℕ → ℕ → Option ℚ → Option (Bool × ℕ)
  | 0, _, _ => none
  | fuel + 1, epoch, prev =>
    if whileCond maxEpochs epoch then
      if ∀ i, 0 < oracle epoch i then some (true, epoch)
      else if trainable = false then some (false, epoch)
      else
        let loss := lossOf (oracle epoch)
        if es = true then
          if prevRise prev loss then some (false, epoch)
          else trainSrcGo oracle trainable maxEpochs es fuel (epoch + 1) (some loss)
        else trainSrcGo oracle trainable maxEpochs es fuel (epoch + 1) prev
    else some (false, epoch)

/-- train of src/src/verifier.py: initial epoch 1 and no previous loss. -/
def trainSrc {d : ℕ} (oracle : ℕ → QVec d) (trainable : Bool)
    (maxEpochs : Option ℕ) (es : Bool) (fuel : ℕ) : Option (Bool × ℕ) :=
  trainSrcGo oracle trainable maxEpochs es fuel 1 none

/-- The layer descriptions dispatched over by the construction loop of
analyze (src/code/verifier.py lines 71-101): the five recognized torch layer
kinds, and any other torch module with its class name. -/
inductive LayerDesc where
  | Flatten : LayerDesc
  | Linear : LayerDesc
  | ReLU : LayerDesc
  | LeakyReLU (negative_slope : ℚ) : LayerDesc
  | Conv2d : LayerDesc
  | Other (name : String) : LayerDesc

/-- The transformer instances the construction loop appends. -/
inductive TransformerTag where
  | flattenT : TransformerTag
  | linearT : TransformerTag
  | leakyT (negative_slope : ℚ) : TransformerTag
  | convT : TransformerTag

/-- Whether a layer kind is one of the recognized isinstance cases. -/
def LayerDesc.recognized : LayerDesc → Prop
  | .Other _ => False
  | _ => True

instance : (l : LayerDesc) → Decidable l.recognized
  | .Flatten => isTrue trivial
  | .Linear => isTrue trivial
  | .ReLU => isTrue trivial
  | .LeakyReLU _ => isTrue trivial
  | .Conv2d => isTrue trivial
  | .Other _ => isFalse (fun h => h)

/-- The layer-dispatch loop of analyze: Flatten, Linear, ReLU (a leaky
transformer with slope 0.0), LeakyReLU and Conv2d (preceded by a Flatten at
depth 0) are mapped to transformers; any other layer raises
`Exception(f"Unknown layer type {...}")`, which aborts construction. -/
def buildTransformers : ℕ → List LayerDesc → Except String (List TransformerTag)
  | _, [] => Except.ok []
  | depth, LayerDesc.Flatten :: rest =>
      (buildTransformers (depth + 1) rest).map (fun ts => TransformerTag.flattenT :: ts)
  | depth, LayerDesc.Linear :: rest =>
      (buildTransformers (depth + 1) rest).map (fun ts => TransformerTag.linearT :: ts)
  | depth, LayerDesc.ReLU :: rest =>
      (buildTransformers (depth + 1) rest).map (fun ts => TransformerTag.leakyT 0 :: ts)
  | depth, LayerDesc.LeakyReLU slope :: rest =>
      (buildTransformers (depth + 1) rest).map (fun ts => TransformerTag.leakyT slope :: ts)
  | depth, LayerDesc.Conv2d :: rest =>
      (buildTransformers (depth + 1) rest).map (fun ts =>
        (if depth = 0 then [TransformerTag.flattenT, TransformerTag.convT]
         else [TransformerTag.convT]) ++ ts)
  | _, LayerDesc.Other name :: _ =>
      Except.error ("Unknown layer type " ++ name)

/-- Modelled from the spec: the recursive statement of back-substitution for
the lower bound alone, following section 4.1 word for word: split the lower
coefficient matrix by sign, multiply the non-negative part into the parent's
lower coefficients and the non-positive part into the parent's upper
coefficients, update the bias by the same split applied to the parent's bias
vectors, repeat with the parent's parent, and at the root (zero-width
coefficients) the accumulated bias vector is the concrete bound. -/
def backsubLowerSpec : {n p : ℕ} → QMat n p → QVec n → Polygon p → QVec n
  | _, _, lc, lb, .root pl pu =>
      fun i => lb i + ∑ j, (clampMin0 (lc i j) * pl j + clampMax0 (lc i j) * pu j)
  | _, _, lc, lb, .node plc puc plb pub pp =>
      backsubLowerSpec
        (fun i k => ∑ j, (clampMin0 (lc i j) * plc j k + clampMax0 (lc i j) * puc j k))
        (fun i => lb i + ∑ j, (clampMin0 (lc i j) * plb j + clampMax0 (lc i j) * pub j))
        pp

/-- Modelled from the spec: the symmetric recursion for the upper bound. -/
def backsubUpperSpec : {n p : ℕ} → QMat n p → QVec n → Polygon p → QVec n
  | _, _, uc, ub, .root pl pu =>
      fun i => ub i + ∑ j, (clampMin0 (uc i j) * pu j + clampMax0 (uc i j) * pl j)
  | _, _, uc, ub, .node plc puc plb pub pp =>
      backsubUpperSpec
        (fun i k => ∑ j, (clampMin0 (uc i j) * puc j k + clampMax0 (uc i j) * plc j k))
        (fun i => ub i + ∑ j, (clampMin0 (uc i j) * pub j + clampMax0 (uc i j) * plb j))
        pp

theorem clampMin0_add_clampMax0 (c : ℚ) : clampMin0 c + clampMax0 c = c := by
  unfold clampMin0 clampMax0
  rcases le_total c 0 with h | h
  · rw [max_eq_right h, min_eq_left h, zero_add]
  · rw [max_eq_left h, min_eq_right h, add_zero]

theorem split_mul_le (c l u x : ℚ) (hl : l ≤ x) (hu : x ≤ u) :
    clampMin0 c * l + clampMax0 c * u ≤ c * x := by
  have h1 : clampMin0 c * l ≤ clampMin0 c * x :=
    mul_le_mul_of_nonneg_left hl (le_max_right c 0)
  have h2 : clampMax0 c * u ≤ clampMax0 c * x :=
    mul_le_mul_of_nonpos_left hu (min_le_right c 0)
  calc clampMin0 c * l + clampMax0 c * u ≤ clampMin0 c * x + clampMax0 c * x :=
        add_le_add h1 h2
    _ = c * x := by rw [← add_mul, clampMin0_add_clampMax0]

theorem le_split_mul (c l u x : ℚ) (hl : l ≤ x) (hu : x ≤ u) :
    c * x ≤ clampMin0 c * u + clampMax0 c * l := by
  have h1 : clampMin0 c * x ≤ clampMin0 c * u :=
    mul_le_mul_of_nonneg_left hu (le_max_right c 0)
  have h2 : clampMax0 c * x ≤ clampMax0 c * l :=
    mul_le_mul_of_nonpos_left hl (min_le_right c 0)
  calc c * x = clampMin0 c * x + clampMax0 c * x := by
        rw [← add_mul, clampMin0_add_clampMax0]
    _ ≤ clampMin0 c * u + clampMax0 c * l := add_le_add h1 h2

theorem sum_expand {q r : ℕ} (a c : Fin q → ℚ) (M N : QMat q r) (mb nb : QVec q)
    (w : QVec r) :
    (∑ k, (∑ j, (a j * M j k + c j * N j k)) * w k) + (∑ j, (a j * mb j + c j * nb j))
      = ∑ j, (a j * ((∑ k, M j k * w k) + mb j) + c j * ((∑ k, N j k * w k) + nb j)) := by
  have h1 : (∑ k, (∑ j, (a j * M j k + c j * N j k)) * w k)
      = ∑ j, (a j * (∑ k, M j k * w k) + c j * (∑ k, N j k * w k)) := by
    calc (∑ k, (∑ j, (a j * M j k + c j * N j k)) * w k)
        = ∑ k, ∑ j, (a j * (M j k * w k) + c j * (N j k * w k)) := by
          refine Finset.sum_congr rfl (fun k _ => ?_)
          rw [Finset.sum_mul]
          exact Finset.sum_congr rfl (fun j _ => by ring)
      _ = ∑ j, ∑ k, (a j * (M j k * w k) + c j * (N j k * w k)) := Finset.sum_comm
      _ = ∑ j, (a j * (∑ k, M j k * w k) + c j * (∑ k, N j k * w k)) := by
          refine Finset.sum_congr rfl (fun j _ => ?_)
          rw [Finset.sum_add_distrib, Finset.mul_sum, Finset.mul_sum]
  rw [h1, ← Finset.sum_add_distrib]
  exact Finset.sum_congr rfl (fun j _ => by ring)

theorem backsubLoop_sound {p : ℕ} (P : Polygon p) :
    ∀ (w : QVec p), P.Models w →
    ∀ {n : ℕ} (lc uc : QMat n p) (lb ub : QVec n) (i : Fin n),
      (backsubLoop lc uc lb ub P).1 i ≤ (∑ j, lc i j * w j) + lb i ∧
      (∑ j, uc i j * w j) + ub i ≤ (backsubLoop lc uc lb ub P).2 i := by
  induction P with
  | root pl pu =>
    intro w hw n lc uc lb ub i
    constructor
    · show lb i + ∑ j, (clampMin0 (lc i j) * pl j + clampMax0 (lc i j) * pu j)
        ≤ (∑ j, lc i j * w j) + lb i
      have hs : ∑ j, (clampMin0 (lc i j) * pl j + clampMax0 (lc i j) * pu j)
          ≤ ∑ j, lc i j * w j :=
        Finset.sum_le_sum (fun j _ => split_mul_le _ _ _ _ (hw j).1 (hw j).2)
      linarith
    · show (∑ j, uc i j * w j) + ub i
        ≤ ub i + ∑ j, (clampMin0 (uc i j) * pu j + clampMax0 (uc i j) * pl j)
      have hs : ∑ j, uc i j * w j
          ≤ ∑ j, (clampMin0 (uc i j) * pu j + clampMax0 (uc i j) * pl j) :=
        Finset.sum_le_sum (fun j _ => le_split_mul _ _ _ _ (hw j).1 (hw j).2)
      linarith
  | node plc puc plb pub pp ih =>
    intro w hw n lc uc lb ub i
    obtain ⟨w2, hw2, hcons⟩ := hw
    have IH := ih w2 hw2
      (fun i k => ∑ j, (clampMin0 (lc i j) * plc j k + clampMax0 (lc i j) * puc j k))
      (fun i k => ∑ j, (clampMin0 (uc i j) * puc j k + clampMax0 (uc i j) * plc j k))
      (fun i => lb i + ∑ j, (clampMin0 (lc i j) * plb j + clampMax0 (lc i j) * pub j))
      (fun i => ub i + ∑ j, (clampMin0 (uc i j) * pub j + clampMax0 (uc i j) * plb j))
      i
    have keyL : (∑ k, (∑ j, (clampMin0 (lc i j) * plc j k + clampMax0 (lc i j) * puc j k)) * w2 k)
        + (lb i + ∑ j, (clampMin0 (lc i j) * plb j + clampMax0 (lc i j) * pub j))
        ≤ (∑ j, lc i j * w j) + lb i := by
      have e : (∑ k, (∑ j, (clampMin0 (lc i j) * plc j k + clampMax0 (lc i j) * puc j k)) * w2 k)
          + (∑ j, (clampMin0 (lc i j) * plb j + clampMax0 (lc i j) * pub j))
          = ∑ j, (clampMin0 (lc i j) * ((∑ k, plc j k * w2 k) + plb j)
              + clampMax0 (lc i j) * ((∑ k, puc j k * w2 k) + pub j)) :=
        sum_expand (fun j => clampMin0 (lc i j)) (fun j => clampMax0 (lc i j)) plc puc plb pub w2
      have hs : ∑ j, (clampMin0 (lc i j) * ((∑ k, plc j k * w2 k) + plb j)
          + clampMax0 (lc i j) * ((∑ k, puc j k * w2 k) + pub j)) ≤ ∑ j, lc i j * w j :=
        Finset.sum_le_sum (fun j _ => split_mul_le _ _ _ _ (hcons j).1 (hcons j).2)
      linarith
    have keyU : (∑ j, uc i j * w j) + ub i
        ≤ (∑ k, (∑ j, (clampMin0 (uc i j) * puc j k + clampMax0 (uc i j) * plc j k)) * w2 k)
          + (ub i + ∑ j, (clampMin0 (uc i j) * pub j + clampMax0 (uc i j) * plb j)) := by
      have e : (∑ k, (∑ j, (clampMin0 (uc i j) * puc j k + clampMax0 (uc i j) * plc j k)) * w2 k)
          + (∑ j, (clampMin0 (uc i j) * pub j + clampMax0 (uc i j) * plb j))
          = ∑ j, (clampMin0 (uc i j) * ((∑ k, puc j k * w2 k) + pub j)
              + clampMax0 (uc i j) * ((∑ k, plc j k * w2 k) + plb j)) :=
        sum_expand (fun j => clampMin0 (uc i j)) (fun j => clampMax0 (uc i j)) puc plc pub plb w2
      have hs : ∑ j, uc i j * w j ≤ ∑ j, (clampMin0 (uc i j) * ((∑ k, puc j k * w2 k) + pub j)
          + clampMax0 (uc i j) * ((∑ k, plc j k * w2 k) + plb j)) :=
        Finset.sum_le_sum (fun j _ => le_split_mul _ _ _ _ (hcons j).1 (hcons j).2)
      linarith
    exact ⟨le_trans IH.1 keyL, le_trans keyU IH.2⟩

theorem models_le_bounds {n : ℕ} (P : Polygon n) (v : QVec n) (h : P.Models v) :
    ∀ i, P.lBound i ≤ v i ∧ v i ≤ P.uBound i := by
  cases P with
  | root l u => exact h
  | node lc uc lb ub parent =>
    intro i
    obtain ⟨w, hw, hcons⟩ := h
    have hb := backsubLoop_sound parent w hw lc uc lb ub i
    exact ⟨le_trans hb.1 (hcons i).1, le_trans (hcons i).2 hb.2⟩

theorem sum_eye_mul {n : ℕ} (i : Fin n) (v : QVec n) :
    (∑ j, (if i = j then (1 : ℚ) else 0) * v j) = v i := by
  simp [ite_mul, Finset.sum_ite_eq]

theorem sum_eye_slope_mul {n : ℕ} (i : Fin n) (s : ℚ) (v : QVec n) :
    (∑ j, ((if i = j then (1 : ℚ) else 0) * s) * v j) = s * v i := by
  simp [ite_mul, Finset.sum_ite_eq]

theorem relu_secant_ub (L U V : ℚ) (hL : L < 0) (hU : 0 < U) (h1 : L ≤ V) (h2 : V ≤ U) :
    max V 0 ≤ U / (U - L) * V + -(U / (U - L)) * L := by
  have hden : 0 < U - L := by linarith
  have heq : U / (U - L) * V + -(U / (U - L)) * L = U * (V - L) / (U - L) := by
    field_simp
    ring
  rw [heq, le_div_iff₀ hden]
  rcases le_or_lt 0 V with hv | hv
  · rw [max_eq_left hv]
    nlinarith [mul_nonneg (by linarith : (0:ℚ) ≤ U - V) (by linarith : (0:ℚ) ≤ -L)]
  · rw [max_eq_right hv.le]
    nlinarith [mul_nonneg (by linarith : (0:ℚ) ≤ V - L) hU.le]

theorem relu_forward_models {n : ℕ} (x : Polygon n) (v : QVec n) (hm : x.Models v) :
    (ReLUTransformer.forward x).Models (fun i => max (v i) 0) := by
  have hb := models_le_bounds x v hm
  refine ⟨v, hm, fun i => ?_⟩
  by_cases hcr : isCrossing x.lBound x.uBound i
  · have hl0 : x.lBound i < 0 := not_le.mp (not_or.mp hcr).2
    have hu0 : 0 < x.uBound i := not_le.mp (not_or.mp hcr).1
    constructor
    · show (∑ j, relu_l_coefs x.lBound x.uBound i j * v j)
        + relu_l_bias x.lBound x.uBound i ≤ max (v i) 0
      simp only [relu_l_coefs, relu_lc_II, relu_l_bias, relu_lb_II, if_pos hcr]
      rw [sum_eye_mul]
      simp
    · show max (v i) 0 ≤ (∑ j, relu_u_coefs x.lBound x.uBound i j * v j)
        + relu_u_bias x.lBound x.uBound i
      simp only [relu_u_coefs, relu_uc_II, relu_u_bias, relu_ub_II, if_pos hcr]
      rw [sum_eye_slope_mul]
      simp only [reluSlope]
      exact relu_secant_ub _ _ _ hl0 hu0 (hb i).1 (hb i).2
  · have hor : x.uBound i ≤ 0 ∨ 0 ≤ x.lBound i := not_not.mp hcr
    by_cases hpos : 0 ≤ x.lBound i
    · have hv0 : 0 ≤ v i := le_trans hpos (hb i).1
      constructor
      · show (∑ j, relu_l_coefs x.lBound x.uBound i j * v j)
          + relu_l_bias x.lBound x.uBound i ≤ max (v i) 0
        simp only [relu_l_coefs, relu_lc_II, relu_lc_I, relu_lc_masks,
          relu_l_bias, relu_lb_II, relu_lb_I, relu_lb_masks, if_neg hcr, if_pos hpos]
        rw [sum_eye_mul]
        simp
      · show max (v i) 0 ≤ (∑ j, relu_u_coefs x.lBound x.uBound i j * v j)
          + relu_u_bias x.lBound x.uBound i
        simp only [relu_u_coefs, relu_uc_II, relu_uc_I, relu_uc_masks,
          relu_u_bias, relu_ub_II, relu_ub_I, relu_ub_masks, if_neg hcr, if_pos hpos]
        rw [sum_eye_mul]
        rw [max_eq_left hv0]
        simp
    · have hneg : x.uBound i ≤ 0 := hor.resolve_right hpos
      have hvn : v i ≤ 0 := le_trans (hb i).2 hneg
      constructor
      · show (∑ j, relu_l_coefs x.lBound x.uBound i j * v j)
          + relu_l_bias x.lBound x.uBound i ≤ max (v i) 0
        simp only [relu_l_coefs, relu_lc_II, relu_lc_I, relu_lc_masks,
          relu_l_bias, relu_lb_II, relu_lb_I, relu_lb_masks,
          if_neg hcr, if_neg hpos, if_pos hneg]
        simp
      · show max (v i) 0 ≤ (∑ j, relu_u_coefs x.lBound x.uBound i j * v j)
          + relu_u_bias x.lBound x.uBound i
        simp only [relu_u_coefs, relu_uc_II, relu_uc_I, relu_uc_masks,
          relu_u_bias, relu_ub_II, relu_ub_I, relu_ub_masks,
          if_neg hcr, if_neg hpos, if_pos hneg]
        simpa using max_le hvn le_rfl

theorem linear_forward_models {m n : ℕ} (W : QMat m n) (b : QVec m) (x : Polygon n)
    (v : QVec n) (h : x.Models v) :
    (LinearTransformer.forward W b x).Models (fun i => (∑ j, W i j * v j) + b i) :=
  ⟨v, h, fun i => ⟨le_refl _, le_refl _⟩⟩

theorem transform_models {n k : ℕ} (net : Net n k) :
    ∀ (x : Polygon n) (v : QVec n), x.Models v → (net.transform x).Models (net.run v) := by
  induction net with
  | nil => exact fun x v h => h
  | flatten rest ih => exact fun x v h => ih _ _ h
  | linear W b rest ih => exact fun x v h => ih _ _ (linear_forward_models W b x v h)
  | relu rest ih => exact fun x v h => ih _ _ (relu_forward_models x v h)

/-- C1: for every network (chain of the transformers in
src/src/transformers.py), every center input, every eps ≥ 0 and every
concrete input z inside the clipped eps-box, the Polygon chain produced by
applying the transformers models the exact forward activations (every
transformer application preserves the invariant), and in particular the
concrete activation of every neuron at the chain's output lies within the
[lBound, uBound] interval concretized by its Polygon; since the network is
quantified over, the same holds at every intermediate layer, as the output of
the corresponding prefix chain. -/
theorem soundness_invariant {n k : ℕ} (net : Net n k) (input : QVec n) (eps : ℚ)
    (heps : 0 ≤ eps) (z : QVec n)
    (hz : ∀ i, clamp01 (input i - eps) ≤ z i ∧ z i ≤ clamp01 (input i + eps)) :
    (net.transform (Polygon.create_from_input input eps)).Models (net.run z) ∧
    ∀ i, (net.transform (Polygon.create_from_input input eps)).lBound i ≤ net.run z i ∧
      net.run z i ≤ (net.transform (Polygon.create_from_input input eps)).uBound i := by
  have h0 : (Polygon.create_from_input input eps).Models z := hz
  have h1 := transform_models net _ z h0
  exact ⟨h1, models_le_bounds _ _ h1⟩

/-- Witness for `soundness_invariant`: a one-neuron ReLU network, center 1/2,
eps 1/2, and the concrete input 1/2 inside the box. -/
theorem soundness_invariant_witness :
    ((Net.relu Net.nil).transform
        (Polygon.create_from_input (fun _ : Fin 1 => (1:ℚ)/2) (1/2))).Models
      ((Net.relu Net.nil).run (fun _ : Fin 1 => (1:ℚ)/2)) ∧
    ∀ i, ((Net.relu Net.nil).transform
        (Polygon.create_from_input (fun _ : Fin 1 => (1:ℚ)/2) (1/2))).lBound i ≤
      (Net.relu Net.nil).run (fun _ : Fin 1 => (1:ℚ)/2) i ∧
      (Net.relu Net.nil).run (fun _ : Fin 1 => (1:ℚ)/2) i ≤
      ((Net.relu Net.nil).transform
        (Polygon.create_from_input (fun _ : Fin 1 => (1:ℚ)/2) (1/2))).uBound i :=
  soundness_invariant (Net.relu Net.nil) (fun _ => 1/2) (1/2) (by norm_num)
    (fun _ => 1/2) (by intro i; constructor <;> norm_num [clamp01])

theorem backsubLoop_fst_eq_spec {p : ℕ} (P : Polygon p) :
    ∀ {n : ℕ} (lc uc : QMat n p) (lb ub : QVec n),
      (backsubLoop lc uc lb ub P).1 = backsubLowerSpec lc lb P := by
  induction P with
  | root pl pu => intro n lc uc lb ub; rfl
  | node plc puc plb pub pp ih =>
    intro n lc uc lb ub
    exact ih _ _ _ _

theorem backsubLoop_snd_eq_spec {p : ℕ} (P : Polygon p) :
    ∀ {n : ℕ} (lc uc : QMat n p) (lb ub : QVec n),
      (backsubLoop lc uc lb ub P).2 = backsubUpperSpec uc ub P := by
  induction P with
  | root pl pu => intro n lc uc lb ub; rfl
  | node plc puc plb pub pp ih =>
    intro n lc uc lb ub
    exact ih _ _ _ _

/-- C2: the concrete bounds stored at construction of any non-root
PolygonBound are exactly the spec's repeated back-substitution: at each
ancestor the sign-split step on coefficients and biases, and at the root the
accumulated bias vectors. -/
theorem back_substitution_correct {n p : ℕ} (lc uc : QMat n p) (lb ub : QVec n)
    (parent : Polygon p) :
    (Polygon.node lc uc lb ub parent).lBound = backsubLowerSpec lc lb parent ∧
    (Polygon.node lc uc lb ub parent).uBound = backsubUpperSpec uc ub parent :=
  ⟨backsubLoop_fst_eq_spec parent lc uc lb ub, backsubLoop_snd_eq_spec parent lc uc lb ub⟩

/-- C3 (code bug): at a crossing neuron with concretized bounds l = -3, u = 1
the tie-break u ≤ -l holds, so the minimal-area heuristic the forward pass is
commented to implement demands Variant A (zero lower-coefficient row for
ReLU), and the state after relu_I indeed has the zero row; but the Polygon
built by ReLUTransformer.forward carries the identity lower row of Variant B,
because relu_I and relu_II mutate the same tensors in place and torch.where
selects between two aliases of the relu_II state. -/
theorem relu_tiebreak_dead :
    (1:ℚ) ≤ -(-3:ℚ) ∧
    relu_lc_I (fun _ : Fin 1 => (-3:ℚ)) (fun _ : Fin 1 => (1:ℚ)) 0 0 = 0 ∧
    relu_l_coefs (fun _ : Fin 1 => (-3:ℚ)) (fun _ : Fin 1 => (1:ℚ)) 0 0 = 1 ∧
    ReLUTransformer.forward (Polygon.root (fun _ : Fin 1 => (-3:ℚ)) (fun _ : Fin 1 => (1:ℚ)))
      = Polygon.node (relu_l_coefs (fun _ : Fin 1 => (-3:ℚ)) (fun _ : Fin 1 => (1:ℚ)))
          (relu_u_coefs (fun _ : Fin 1 => (-3:ℚ)) (fun _ : Fin 1 => (1:ℚ)))
          (relu_l_bias (fun _ : Fin 1 => (-3:ℚ)) (fun _ : Fin 1 => (1:ℚ)))
          (relu_u_bias (fun _ : Fin 1 => (-3:ℚ)) (fun _ : Fin 1 => (1:ℚ)))
          (Polygon.root (fun _ : Fin 1 => (-3:ℚ)) (fun _ : Fin 1 => (1:ℚ))) :=
  ⟨by norm_num, by decide, by decide, rfl⟩

/-- C4 (counterexample): at a neuron with concretized bounds l = u = 0 the
claim's always-negative case (u ≤ 0 implies both coefficient rows equal
s·identity, which is the zero row for ReLU) fails on the code: the
always-positive write runs second and leaves the identity row. -/
theorem relu_case_overlap_counterexample :
    ((fun _ : Fin 1 => (0:ℚ)) 0 ≤ 0) ∧
    relu_l_coefs (fun _ : Fin 1 => (0:ℚ)) (fun _ : Fin 1 => (0:ℚ)) 0 0 = 1 ∧
    relu_u_coefs (fun _ : Fin 1 => (0:ℚ)) (fun _ : Fin 1 => (0:ℚ)) 0 0 = 1 ∧
    (1:ℚ) ≠ 0 :=
  ⟨le_refl _, by decide, by decide, by norm_num⟩

/-- C4 (amended): case analysis of ReLUTransformer.forward (s = 0 for ReLU,
the activation transformer of src/src/transformers.py).  If u ≤ 0 and
additionally l < 0, both coefficient rows are the zero (s·identity) row with
zero bias; if l ≥ 0, both rows are the identity row with zero bias; if
l < 0 < u, the upper bound written by relu_I and written again by relu_II —
hence the upper bound of both candidate variants — is the secant line with
slope u/(u - l) = (u - s·l)/(u - l) and bias -slope·l. -/
theorem relu_case_analysis {n : ℕ} (lb ub : QVec n) (i : Fin n) :
    (ub i ≤ 0 → lb i < 0 →
      (∀ j, relu_l_coefs lb ub i j = 0 ∧ relu_u_coefs lb ub i j = 0) ∧
      relu_l_bias lb ub i = 0 ∧ relu_u_bias lb ub i = 0) ∧
    (0 ≤ lb i →
      (∀ j, relu_l_coefs lb ub i j = (if i = j then 1 else 0) ∧
        relu_u_coefs lb ub i j = (if i = j then 1 else 0)) ∧
      relu_l_bias lb ub i = 0 ∧ relu_u_bias lb ub i = 0) ∧
    (lb i < 0 → 0 < ub i →
      (∀ j, relu_uc_I lb ub i j = (if i = j then 1 else 0) * (ub i / (ub i - lb i)) ∧
        relu_uc_II lb ub i j = (if i = j then 1 else 0) * (ub i / (ub i - lb i))) ∧
      relu_ub_I lb ub i = -(ub i / (ub i - lb i)) * lb i ∧
      relu_ub_II lb ub i = -(ub i / (ub i - lb i)) * lb i) := by
  refine ⟨fun hu hl => ?_, fun hpos => ?_, fun hl hu => ?_⟩
  · have hp : ¬ 0 ≤ lb i := not_le.mpr hl
    refine ⟨fun j => ?_, ?_, ?_⟩ <;>
      simp [relu_l_coefs, relu_lc_II, relu_lc_I, relu_lc_masks,
        relu_u_coefs, relu_uc_II, relu_uc_I, relu_uc_masks,
        relu_l_bias, relu_lb_II, relu_lb_I, relu_lb_masks,
        relu_u_bias, relu_ub_II, relu_ub_I, relu_ub_masks,
        hu, hp, not_lt.mpr hu]
  · have hq : ¬ lb i < 0 := not_lt.mpr hpos
    refine ⟨fun j => ?_, ?_, ?_⟩ <;>
      simp [relu_l_coefs, relu_lc_II, relu_lc_I, relu_lc_masks,
        relu_u_coefs, relu_uc_II, relu_uc_I, relu_uc_masks,
        relu_l_bias, relu_lb_II, relu_lb_I, relu_lb_masks,
        relu_u_bias, relu_ub_II, relu_ub_I, relu_ub_masks,
        hpos, hq]
  · have hq : ¬ ub i ≤ 0 := not_le.mpr hu
    have hp : ¬ 0 ≤ lb i := not_le.mpr hl
    refine ⟨fun j => ?_, ?_, ?_⟩ <;>
      simp [relu_uc_I, relu_uc_II, relu_ub_I, relu_ub_II, reluSlope, hl, hu, hq, hp]

/-- Witness for `relu_case_analysis` at the three concrete inputs
(l, u) = (-2, -1), (1, 2) and (-1, 3). -/
theorem relu_case_analysis_witness :
    ((∀ j, relu_l_coefs (fun _ : Fin 1 => (-2:ℚ)) (fun _ : Fin 1 => (-1:ℚ)) 0 j = 0 ∧
        relu_u_coefs (fun _ : Fin 1 => (-2:ℚ)) (fun _ : Fin 1 => (-1:ℚ)) 0 j = 0) ∧
      relu_l_bias (fun _ : Fin 1 => (-2:ℚ)) (fun _ : Fin 1 => (-1:ℚ)) 0 = 0 ∧
      relu_u_bias (fun _ : Fin 1 => (-2:ℚ)) (fun _ : Fin 1 => (-1:ℚ)) 0 = 0) ∧
    ((∀ j, relu_l_coefs (fun _ : Fin 1 => (1:ℚ)) (fun _ : Fin 1 => (2:ℚ)) 0 j =
        (if (0 : Fin 1) = j then 1 else 0) ∧
        relu_u_coefs (fun _ : Fin 1 => (1:ℚ)) (fun _ : Fin 1 => (2:ℚ)) 0 j =
        (if (0 : Fin 1) = j then 1 else 0)) ∧
      relu_l_bias (fun _ : Fin 1 => (1:ℚ)) (fun _ : Fin 1 => (2:ℚ)) 0 = 0 ∧
      relu_u_bias (fun _ : Fin 1 => (1:ℚ)) (fun _ : Fin 1 => (2:ℚ)) 0 = 0) ∧
    ((∀ j, relu_uc_I (fun _ : Fin 1 => (-1:ℚ)) (fun _ : Fin 1 => (3:ℚ)) 0 j =
        (if (0 : Fin 1) = j then 1 else 0) * ((3:ℚ) / (3 - -1)) ∧
        relu_uc_II (fun _ : Fin 1 => (-1:ℚ)) (fun _ : Fin 1 => (3:ℚ)) 0 j =
        (if (0 : Fin 1) = j then 1 else 0) * ((3:ℚ) / (3 - -1))) ∧
      relu_ub_I (fun _ : Fin 1 => (-1:ℚ)) (fun _ : Fin 1 => (3:ℚ)) 0 =
        -((3:ℚ) / (3 - -1)) * (-1) ∧
      relu_ub_II (fun _ : Fin 1 => (-1:ℚ)) (fun _ : Fin 1 => (3:ℚ)) 0 =
        -((3:ℚ) / (3 - -1)) * (-1)) :=
  ⟨(relu_case_analysis (fun _ => -2) (fun _ => -1) 0).1 (by norm_num) (by norm_num),
   (relu_case_analysis (fun _ => 1) (fun _ => 2) 0).2.1 (by norm_num),
   (relu_case_analysis (fun _ => -1) (fun _ => 3) 0).2.2 (by norm_num) (by norm_num)⟩

/-- C5: the synthetic final layer appended by analyze has exactly c - 1 rows,
one per class other than the true label t (classes in increasing order,
skipping t); the row whose class is j equals the unit vector for t minus the
unit vector for j, and the bias vector is zero. -/
theorem margin_layer_correct (c t : ℕ) (ht : t < c) :
    (finalLayerWeights c t).length = c - 1 ∧
    (∀ k (hk : k < (finalLayerWeights c t).length),
      (finalLayerWeights c t).get ⟨k, hk⟩ =
        fun (i : Fin c) => (if (i : ℕ) = t then (1:ℚ) else 0) -
          (if (i : ℕ) = (if k < t then k else k + 1) then 1 else 0)) ∧
    (∀ i, finalLayerBias c t i = 0) := by
  have hlen : (negEyeRows c).length = c := by simp [negEyeRows]
  have hlen2 : (finalLayerWeights c t).length = c - 1 := by
    simp [finalLayerWeights, hlen]
    omega
  refine ⟨hlen2, fun k hk => ?_, fun i => rfl⟩
  have hklt : k < c - 1 := hlen2 ▸ hk
  funext i
  rw [List.get_eq_getElem]
  simp only [finalLayerWeights, List.getElem_map]
  rw [List.getElem_append]
  simp only [List.length_take, hlen, Nat.min_eq_left (le_of_lt ht)]
  by_cases hkt : k < t
  · rw [dif_pos hkt]
    rw [List.getElem_take]
    simp only [negEyeRows, List.getElem_map, List.getElem_finRange, if_pos hkt]
    have h3 : ¬ t = k := by omega
    have h4 : ¬ k = t := by omega
    by_cases h1 : (i : ℕ) = t
    · have h2 : ¬ (i : ℕ) = k := by omega
      simp [h1, h2, h3, Fin.ext_iff]
    · by_cases h2 : (i : ℕ) = k
      · simp [h1, h2, h4, Fin.ext_iff]
      · simp [h1, h2, Fin.ext_iff]
  · rw [dif_neg hkt]
    rw [List.getElem_drop]
    simp only [negEyeRows, List.getElem_map, List.getElem_finRange, if_neg hkt]
    have hc : t + 1 + (k - t) = k + 1 := by omega
    have h3 : ¬ t = k + 1 := by omega
    have h4 : ¬ k + 1 = t := by omega
    by_cases h1 : (i : ℕ) = t
    · have h2 : ¬ (i : ℕ) = k + 1 := by omega
      simp [h1, h2, h3, hc, Fin.ext_iff]
    · by_cases h2 : (i : ℕ) = k + 1
      · simp [h1, h2, h4, hc, Fin.ext_iff]
      · simp [h1, h2, hc, Fin.ext_iff]

/-- Witness for `margin_layer_correct` at c = 3 classes, true label t = 1. -/
theorem margin_layer_correct_witness :
    (1 : ℕ) < 3 ∧
    ((finalLayerWeights 3 1).length = 3 - 1 ∧
    (∀ k (hk : k < (finalLayerWeights 3 1).length),
      (finalLayerWeights 3 1).get ⟨k, hk⟩ =
        fun (i : Fin 3) => (if (i : ℕ) = 1 then (1:ℚ) else 0) -
          (if (i : ℕ) = (if k < 1 then k else k + 1) then 1 else 0)) ∧
    (∀ i, finalLayerBias 3 1 i = 0)) :=
  ⟨by norm_num, margin_layer_correct 3 1 (by norm_num)⟩

theorem trainGo_epoch_le {d : ℕ} (oracle : ℕ → QVec d) (trainable : Bool)
    (maxEpochs es ls : Option ℕ) (cap : ℕ) :
    ∀ (fuel : ℕ) (s : TrainState) (r : Bool × ℕ),
      trainGo oracle trainable maxEpochs es ls cap fuel s = some r → s.epoch ≤ r.2 := by
  intro fuel
  induction fuel with
  | zero => intro s r h; simp [trainGo] at h
  | succ fuel ih =>
    intro s r h
    simp only [trainGo] at h
    by_cases hw : whileCond maxEpochs s.epoch
    · simp only [if_pos hw] at h
      by_cases hv : ∀ i, 0 < oracle s.epoch i
      · simp only [if_pos hv] at h
        have := Option.some.inj h
        subst this
        exact le_refl _
      · simp only [if_neg hv] at h
        by_cases htr : trainable = false
        · simp only [if_pos htr] at h
          have := Option.some.inj h
          subst this
          exact le_refl _
        · simp only [if_neg htr] at h
          by_cases hes : esStop es
              ((wpush cap s.window (risingFlag s.prevLoss (lossOf (oracle s.epoch)))).count true)
          · simp only [if_pos hes] at h
            have := Option.some.inj h
            subst this
            exact le_refl _
          · simp only [if_neg hes] at h
            have := ih _ _ h
            simp only at this
            omega
    · simp only [if_neg hw] at h
      have := Option.some.inj h
      subst this
      exact le_refl _

theorem trainSrcGo_epoch_le {d : ℕ} (oracle : ℕ → QVec d) (trainable : Bool)
    (maxEpochs : Option ℕ) (es : Bool) :
    ∀ (fuel : ℕ) (epoch : ℕ) (prev : Option ℚ) (r : Bool × ℕ),
      trainSrcGo oracle trainable maxEpochs es fuel epoch prev = some r → epoch ≤ r.2 := by
  intro fuel
  induction fuel with
  | zero => intro epoch prev r h; simp [trainSrcGo] at h
  | succ fuel ih =>
    intro epoch prev r h
    simp only [trainSrcGo] at h
    by_cases hw : whileCond maxEpochs epoch
    · simp only [if_pos hw] at h
      by_cases hv : ∀ i, 0 < oracle epoch i
      · simp only [if_pos hv] at h
        have := Option.some.inj h
        subst this
        exact le_refl _
      · simp only [if_neg hv] at h
        by_cases htr : trainable = false
        · simp only [if_pos htr] at h
          have := Option.some.inj h
          subst this
          exact le_refl _
        · simp only [if_neg htr] at h
          by_cases hes : es = true
          · simp only [if_pos hes] at h
            by_cases hpr : prevRise prev (lossOf (oracle epoch))
            · simp only [if_pos hpr] at h
              have := Option.some.inj h
              subst this
              exact le_refl _
            · simp only [if_neg hpr] at h
              have := ih _ _ _ h
              omega
          · simp only [if_neg hes] at h
            have := ih _ _ _ h
            omega
    · simp only [if_neg hw] at h
      have := Option.some.inj h
      subst this
      exact le_refl _

theorem trainGo_cap_exhaust {d : ℕ} (oracle : ℕ → QVec d) (ls : Option ℕ)
    (cap m : ℕ) :
    ∀ (fuel : ℕ) (s : TrainState), m + 2 ≤ s.epoch + fuel → s.epoch ≤ m + 1 →
      (∀ e, s.epoch ≤ e → e ≤ m → ¬ ∀ i, 0 < oracle e i) →
      trainGo oracle true (some m) none ls cap fuel s = some (false, m + 1) := by
  intro fuel
  induction fuel with
  | zero => intro s h1 h2 _; omega
  | succ fuel ih =>
    intro s h1 h2 hnv
    simp only [trainGo]
    by_cases hw : whileCond (some m) s.epoch
    · have hwm : s.epoch ≤ m := hw
      rw [if_pos hw, if_neg (hnv s.epoch (le_refl _) hwm)]
      have htr : ¬ (true = false) := by simp
      rw [if_neg htr]
      have hes : ¬ esStop none
          ((wpush cap s.window (risingFlag s.prevLoss (lossOf (oracle s.epoch)))).count true) :=
        fun h => h
      rw [if_neg hes]
      exact ih _ (by simp; omega) (by simp; omega) (fun e he hem => hnv e (by simp at he; omega) hem)
    · have hwm : ¬ s.epoch ≤ m := hw
      rw [if_neg hw]
      have : s.epoch = m + 1 := by omega
      rw [this]

theorem trainSrcGo_cap_exhaust {d : ℕ} (oracle : ℕ → QVec d) (m : ℕ) :
    ∀ (fuel : ℕ) (epoch : ℕ) (prev : Option ℚ), m + 2 ≤ epoch + fuel → epoch ≤ m + 1 →
      (∀ e, epoch ≤ e → e ≤ m → ¬ ∀ i, 0 < oracle e i) →
      trainSrcGo oracle true (some m) false fuel epoch prev = some (false, m + 1) := by
  intro fuel
  induction fuel with
  | zero => intro epoch prev h1 h2 _; omega
  | succ fuel ih =>
    intro epoch prev h1 h2 hnv
    simp only [trainSrcGo]
    by_cases hw : whileCond (some m) epoch
    · have hwm : epoch ≤ m := hw
      rw [if_pos hw, if_neg (hnv epoch (le_refl _) hwm)]
      have htr : ¬ (true = false) := by simp
      rw [if_neg htr]
      have hes : ¬ (false = true) := by simp
      rw [if_neg hes]
      exact ih _ _ (by omega) (by omega) (fun e he hem => hnv e (by omega) hem)
    · have hwm : ¬ epoch ≤ m := hw
      rw [if_neg hw]
      have : epoch = m + 1 := by omega
      rw [this]

/-- C6: in both train loops, whenever an iteration starts with every margin's
concretized lower bound strictly positive, the loop returns (verified,
current epoch count) at once; and when the chain has no trainable parameters
and the first forward pass does not verify, the loop returns the result
(not verified, epoch 1) immediately and deterministically, not an error. -/
theorem stopping_on_resolution :
    (∀ (d : ℕ) (oracle : ℕ → QVec d) (trainable : Bool) (maxEpochs es ls : Option ℕ)
      (cap fuel : ℕ) (s : TrainState),
      whileCond maxEpochs s.epoch → (∀ i, 0 < oracle s.epoch i) →
      trainGo oracle trainable maxEpochs es ls cap (fuel + 1) s = some (true, s.epoch)) ∧
    (∀ (d : ℕ) (oracle : ℕ → QVec d) (maxEpochs es ls : Option ℕ) (fuel : ℕ),
      whileCond maxEpochs 1 → ¬ (∀ i, 0 < oracle 1 i) →
      train oracle false maxEpochs es ls (fuel + 1) = some (false, 1)) ∧
    (∀ (d : ℕ) (oracle : ℕ → QVec d) (trainable : Bool) (maxEpochs : Option ℕ) (es : Bool)
      (fuel epoch : ℕ) (prev : Option ℚ),
      whileCond maxEpochs epoch → (∀ i, 0 < oracle epoch i) →
      trainSrcGo oracle trainable maxEpochs es (fuel + 1) epoch prev = some (true, epoch)) ∧
    (∀ (d : ℕ) (oracle : ℕ → QVec d) (maxEpochs : Option ℕ) (es : Bool) (fuel : ℕ),
      whileCond maxEpochs 1 → ¬ (∀ i, 0 < oracle 1 i) →
      trainSrc oracle false maxEpochs es (fuel + 1) = some (false, 1)) := by
  refine ⟨?_, ?_, ?_, ?_⟩
  · intro d oracle trainable maxEpochs es ls cap fuel s hw hv
    simp [trainGo, hw, hv]
  · intro d oracle maxEpochs es ls fuel hw hv
    simp [train, trainGo, hw, hv]
  · intro d oracle trainable maxEpochs es fuel epoch prev hw hv
    simp [trainSrcGo, hw, hv]
  · intro d oracle maxEpochs es fuel hw hv
    simp [trainSrc, trainSrcGo, hw, hv]

/-- Witness for `stopping_on_resolution`: a verifying oracle stops verified at
epoch 1, a non-verifying oracle with no trainable parameters stops not
verified at epoch 1, in both loops. -/
theorem stopping_on_resolution_witness :
    trainGo (fun _ => (fun _ : Fin 1 => (1:ℚ))) true none none none 0 1
        ⟨1, none, [], 5⟩ = some (true, 1) ∧
    train (fun _ => (fun _ : Fin 1 => (-1:ℚ))) false none none none 1 = some (false, 1) ∧
    trainSrcGo (fun _ => (fun _ : Fin 1 => (1:ℚ))) true none false 1 1 none = some (true, 1) ∧
    trainSrc (fun _ => (fun _ : Fin 1 => (-1:ℚ))) false none false 1 = some (false, 1) :=
  ⟨stopping_on_resolution.1 1 (fun _ => (fun _ => 1)) true none none none 0 0
      ⟨1, none, [], 5⟩ trivial (fun i => by norm_num),
   stopping_on_resolution.2.1 1 (fun _ => (fun _ => -1)) none none none 0 trivial
      (fun h => by have := h 0; norm_num at this),
   stopping_on_resolution.2.2.1 1 (fun _ => (fun _ => 1)) true none false 0 1 none
      trivial (fun i => by norm_num),
   stopping_on_resolution.2.2.2 1 (fun _ => (fun _ => -1)) none false 0 trivial
      (fun h => by have := h 0; norm_num at this)⟩

/-- C10: for every max-epoch cap m ≥ 1, a trainable run that never verifies
within the cap and never triggers early stopping returns (False, m + 1) —
one more than the cap — in both train loops, and every result either loop
returns carries an epoch count of at least 1.  The lr-scheduling threshold 0
is excluded from the first conjunct: there (with no early stopping) the
Python loop dies with IndexError on the empty deque at epoch 1, so it never
exhausts the cap and the claim's premise cannot arise. -/
theorem max_epoch_exhaustion :
    (∀ (d : ℕ) (oracle : ℕ → QVec d) (m : ℕ) (ls : Option ℕ) (fuel : ℕ),
      1 ≤ m → m + 1 ≤ fuel → ls ≠ some 0 →
      (∀ e, 1 ≤ e → e ≤ m → ¬ ∀ i, 0 < oracle e i) →
      train oracle true (some m) none ls fuel = some (false, m + 1)) ∧
    (∀ (d : ℕ) (oracle : ℕ → QVec d) (m : ℕ) (fuel : ℕ),
      1 ≤ m → m + 1 ≤ fuel →
      (∀ e, 1 ≤ e → e ≤ m → ¬ ∀ i, 0 < oracle e i) →
      trainSrc oracle true (some m) false fuel = some (false, m + 1)) ∧
    (∀ (d : ℕ) (oracle : ℕ → QVec d) (trainable : Bool) (maxEpochs es ls : Option ℕ)
      (fuel : ℕ) (r : Bool × ℕ),
      train oracle trainable maxEpochs es ls fuel = some r → 1 ≤ r.2) ∧
    (∀ (d : ℕ) (oracle : ℕ → QVec d) (trainable : Bool) (maxEpochs : Option ℕ) (es : Bool)
      (fuel : ℕ) (r : Bool × ℕ),
      trainSrc oracle trainable maxEpochs es fuel = some r → 1 ≤ r.2) := by
  refine ⟨?_, ?_, ?_, ?_⟩
  · intro d oracle m ls fuel _ hf _ hnv
    rw [train]
    exact trainGo_cap_exhaust oracle ls _ m fuel ⟨1, none, [], 5⟩
      (by show m + 2 ≤ 1 + fuel; omega) (by show (1:ℕ) ≤ m + 1; omega)
      (fun e he hem => hnv e he hem)
  · intro d oracle m fuel _ hf hnv
    rw [trainSrc]
    exact trainSrcGo_cap_exhaust oracle m fuel 1 none (by omega) (by omega)
      (fun e he hem => hnv e he hem)
  · intro d oracle trainable maxEpochs es ls fuel r h
    rw [train] at h
    exact trainGo_epoch_le oracle trainable maxEpochs es ls _ fuel _ r h
  · intro d oracle trainable maxEpochs es fuel r h
    rw [trainSrc] at h
    exact trainSrcGo_epoch_le oracle trainable maxEpochs es fuel 1 none r h

/-- Witness for `max_epoch_exhaustion`: cap 1 with a never-verifying oracle
returns (False, 2) in both loops, and those epoch counts are at least 1. -/
theorem max_epoch_exhaustion_witness :
    train (fun _ => (fun _ : Fin 1 => (-1:ℚ))) true (some 1) none none 2 = some (false, 2) ∧
    trainSrc (fun _ => (fun _ : Fin 1 => (-1:ℚ))) true (some 1) false 2 = some (false, 2) ∧
    1 ≤ (false, 2).2 ∧
    1 ≤ (false, 2).2 :=
  have h1 : train (fun _ => (fun _ : Fin 1 => (-1:ℚ))) true (some 1) none none 2
      = some (false, 2) :=
    max_epoch_exhaustion.1 1 (fun _ => (fun _ => -1)) 1 none 2 (by norm_num) (by norm_num)
      (fun h => Option.noConfusion h)
      (fun e _ _ h => by have := h 0; norm_num at this)
  have h2 : trainSrc (fun _ => (fun _ : Fin 1 => (-1:ℚ))) true (some 1) false 2
      = some (false, 2) :=
    max_epoch_exhaustion.2.1 1 (fun _ => (fun _ => -1)) 1 2 (by norm_num) (by norm_num)
      (fun e _ _ h => by have := h 0; norm_num at this)
  ⟨h1, h2,
   max_epoch_exhaustion.2.2.1 1 (fun _ => (fun _ => -1)) true (some 1) none none 2 (false, 2) h1,
   max_epoch_exhaustion.2.2.2 1 (fun _ => (fun _ => -1)) true (some 1) false 2 (false, 2) h2⟩

theorem count_drop_le (p : Bool) (l : List Bool) (n : ℕ) :
    (l.drop n).count p ≤ l.count p := by
  conv_rhs => rw [← List.take_append_drop n l]
  rw [List.count_append]
  omega

theorem count_wpush_le (cap : ℕ) (w : List Bool) (b : Bool) :
    (wpush cap w b).count true ≤ w.count true + (if b then 1 else 0) := by
  unfold wpush
  calc ((w ++ [b]).drop ((w ++ [b]).length - cap)).count true
      ≤ (w ++ [b]).count true := count_drop_le true _ _
    _ = w.count true + (if b then 1 else 0) := by
        rw [List.count_append]
        cases b <;> simp

theorem wpush_getLastD (cap : ℕ) (hcap : 1 ≤ cap) (w : List Bool) (b : Bool) :
    (wpush cap w b).getLastD false = b := by
  unfold wpush
  have hlen : (w ++ [b]).length - cap ≤ w.length := by simp; omega
  rw [List.drop_append_of_le_length hlen]
  exact List.getLastD_concat _ _ _

theorem wpush_no_evict (cap : ℕ) (w : List Bool) (b : Bool) (h : w.length + 1 ≤ cap) :
    wpush cap w b = w ++ [b] := by
  unfold wpush
  have : (w ++ [b]).length - cap = 0 := by simp; omega
  rw [this, List.drop_zero]

theorem trainGo_eq_spec {d : ℕ} (oracle : ℕ → QVec d) (trainable : Bool)
    (maxEpochs : Option ℕ) (k : ℕ) (ls : Option ℕ) (cap : ℕ)
    (hk : 1 ≤ k) (hcap : 1 ≤ cap) :
    ∀ (fuel : ℕ) (s : TrainState), s.window.count true < k →
      trainGo oracle trainable maxEpochs (some k) ls cap fuel s
        = trainSpecGo oracle trainable maxEpochs (some k) ls cap fuel s := by
  intro fuel
  induction fuel with
  | zero => intro s _; rfl
  | succ fuel ih =>
    intro s hcnt
    simp only [trainGo, trainSpecGo]
    by_cases hw : whileCond maxEpochs s.epoch
    · by_cases hv : ∀ i, 0 < oracle s.epoch i
      · simp [hw, hv]
      · by_cases htr : trainable = false
        · simp [hw, hv, htr]
        · simp only [if_pos hw, if_neg hv, if_neg htr]
          cases hf : risingFlag s.prevLoss (lossOf (oracle s.epoch)) with
          | false =>
            have hle : (wpush cap s.window false).count true ≤ s.window.count true := by
              have := count_wpush_le cap s.window false
              simpa using this
            have hes : ¬ esStop (some k)
                ((wpush cap s.window false).count true) := by
              show ¬ k ≤ _
              omega
            have hesS : ¬ esStopSpec (some k)
                ((wpush cap s.window false).count true)
                ((wpush cap s.window false).getLastD false) :=
              fun h => hes h.1
            rw [if_neg hes, if_neg hesS]
            exact ih _ (by show (wpush cap s.window false).count true < k; omega)
          | true =>
            by_cases hstop : k ≤ (wpush cap s.window true).count true
            · have hes : esStop (some k) ((wpush cap s.window true).count true) := hstop
              have hesS : esStopSpec (some k) ((wpush cap s.window true).count true)
                  ((wpush cap s.window true).getLastD false) :=
                ⟨hstop, wpush_getLastD cap hcap s.window true⟩
              rw [if_pos hes, if_pos hesS]
            · have hes : ¬ esStop (some k) ((wpush cap s.window true).count true) := hstop
              have hesS : ¬ esStopSpec (some k) ((wpush cap s.window true).count true)
                  ((wpush cap s.window true).getLastD false) := fun h => hstop h.1
              rw [if_neg hes, if_neg hesS]
              exact ih _ (by show (wpush cap s.window true).count true < k; omega)
    · simp [hw]

theorem trainGo_increasing_stops {d : ℕ} (oracle : ℕ → QVec d) (k : ℕ) (ls : Option ℕ)
    (cap : ℕ) (hk : 1 ≤ k) (hcap : 2 * k ≤ cap)
    (hnv : ∀ e, 1 ≤ e → e ≤ k + 1 → ¬ ∀ i, 0 < oracle e i)
    (hinc : ∀ e, 1 ≤ e → e ≤ k → lossOf (oracle e) < lossOf (oracle (e + 1))) :
    ∀ (fuel : ℕ) (e : ℕ) (w : List Bool) (lr : ℚ), 2 ≤ e → e ≤ k + 1 → k + 2 ≤ e + fuel →
      w.length = e - 1 → w.count true = e - 2 →
      trainGo oracle true none (some k) ls cap fuel
        ⟨e, some (lossOf (oracle (e - 1))), w, lr⟩ = some (false, k + 1) := by
  intro fuel
  induction fuel with
  | zero => intro e w lr h2 hek hf _ _; omega
  | succ fuel ih =>
    intro e w lr h2 hek hf hwl hwc
    simp only [trainGo]
    have hw : whileCond none e := trivial
    rw [if_pos hw]
    rw [if_neg (hnv e (by omega) (by omega))]
    rw [if_neg (by simp : ¬ (true = false))]
    have hflag : risingFlag (some (lossOf (oracle (e - 1)))) (lossOf (oracle e)) = true := by
      have hlt := hinc (e - 1) (by omega) (by omega)
      have he : e - 1 + 1 = e := by omega
      rw [he] at hlt
      simp [risingFlag, le_of_lt hlt]
    rw [hflag, wpush_no_evict cap w true (by omega)]
    have hcnt : (w ++ [true]).count true = e - 1 := by
      rw [List.count_append]
      simp
      omega
    by_cases hstop : e = k + 1
    · have hes : esStop (some k) ((w ++ [true]).count true) := by
        show k ≤ _
        rw [hcnt]; omega
      rw [if_pos hes, hstop]
    · have hes : ¬ esStop (some k) ((w ++ [true]).count true) := by
        show ¬ k ≤ _
        rw [hcnt]; omega
      rw [if_neg hes]
      have key := ih (e + 1) (w ++ [true])
        (lrStep ls ((w ++ [true]).count true) ((w ++ [true]).getLastD false) lr)
        (by omega) (by omega) (by omega) (by simp [hwl]; omega) (by rw [hcnt]; omega)
      have he2 : e + 1 - 1 = e := by omega
      rw [he2] at key
      exact key

theorem lossOf_constNeg (x : ℚ) (hx : 0 ≤ x) : lossOf (fun _ : Fin 1 => -x) = x := by
  unfold lossOf
  rw [Fin.sum_univ_one]
  rw [min_eq_left (neg_nonpos.mpr hx), abs_of_nonpos (neg_nonpos.mpr hx), neg_neg]

/-- C7 (counterexample): with early_stopping = 0 configured, the loop stops
not-verified at epoch 1 even though the latest iteration's loss improved (the
first flag is unset: there is no previous loss), while the loop with the
spec's stopping rule does not stop there. -/
theorem early_stopping_zero_counterexample :
    train (fun _ => (fun _ : Fin 1 => (-1:ℚ))) true none (some 0) none 3 = some (false, 1) ∧
    risingFlag none (lossOf (fun _ : Fin 1 => (-1:ℚ))) = false ∧
    trainSpec (fun _ => (fun _ : Fin 1 => (-1:ℚ))) true none (some 0) none 3 = none := by
  refine ⟨?_, rfl, ?_⟩ <;> decide

/-- C7 (amended): for every configured early-stopping threshold k ≥ 1, the
src/code/verifier.py train loop is extensionally equal to the loop whose
early-stopping test is the spec's rule — at least k set flags in the sliding
window AND the latest iteration's loss did not improve — so the driver stops
not-verified exactly when that rule fires (the code omits the second
conjunct, but a window count of k is first reached only by appending a set
flag); and a loss sequence strictly increasing for k consecutive iterations
triggers not-verified at epoch k + 1. -/
theorem early_stopping_window :
    (∀ (d : ℕ) (oracle : ℕ → QVec d) (trainable : Bool) (maxEpochs : Option ℕ)
      (k : ℕ) (ls : Option ℕ) (fuel : ℕ), 1 ≤ k →
      train oracle trainable maxEpochs (some k) ls fuel
        = trainSpec oracle trainable maxEpochs (some k) ls fuel) ∧
    (∀ (d : ℕ) (oracle : ℕ → QVec d) (k : ℕ) (ls : Option ℕ) (fuel : ℕ), 1 ≤ k →
      k + 1 ≤ fuel →
      (∀ e, 1 ≤ e → e ≤ k + 1 → ¬ ∀ i, 0 < oracle e i) →
      (∀ e, 1 ≤ e → e ≤ k → lossOf (oracle e) < lossOf (oracle (e + 1))) →
      train oracle true none (some k) ls fuel = some (false, k + 1)) := by
  constructor
  · intro d oracle trainable maxEpochs k ls fuel hk
    rw [train, trainSpec]
    have hmax : k ≤ max k (ls.getD 0) := Nat.le_max_left _ _
    exact trainGo_eq_spec oracle trainable maxEpochs k ls _ hk
      (by show 1 ≤ 2 * max k (ls.getD 0); omega) fuel ⟨1, none, [], 5⟩
      (by show List.count true [] < k; simp; omega)
  · intro d oracle k ls fuel hk hf hnv hinc
    rw [train]
    obtain ⟨fuel2, rfl⟩ : ∃ f2, fuel = f2 + 1 := ⟨fuel - 1, by omega⟩
    have hmax : k ≤ max k (ls.getD 0) := Nat.le_max_left _ _
    simp only [trainGo]
    have hw : whileCond none 1 := trivial
    rw [if_pos hw]
    rw [if_neg (hnv 1 (by omega) (by omega))]
    rw [if_neg (by simp : ¬ (true = false))]
    rw [show risingFlag none (lossOf (oracle 1)) = false from rfl]
    rw [wpush_no_evict _ [] false (by show List.length [] + 1 ≤ 2 * max k (ls.getD 0); simp; omega)]
    have hes : ¬ esStop (some k) ((List.nil ++ [false]).count true) := by
      show ¬ k ≤ _
      simp
      omega
    rw [if_neg hes]
    have key := trainGo_increasing_stops oracle k ls (2 * max k (ls.getD 0)) hk
      (by omega) hnv hinc fuel2 2 ([] ++ [false])
      (lrStep ls ((List.nil ++ [false]).count true) ((List.nil ++ [false]).getLastD false) 5)
      (by omega) (by omega) (by omega) (by simp) (by simp)
    simpa using key

/-- Witness for `early_stopping_window`: the equivalence at threshold 1, and
the strictly rising loss sequence e ↦ e stopping at epoch 2 under
early_stopping = 1. -/
theorem early_stopping_window_witness :
    train (fun _ => (fun _ : Fin 1 => (-1:ℚ))) true (some 2) (some 1) none 1
      = trainSpec (fun _ => (fun _ : Fin 1 => (-1:ℚ))) true (some 2) (some 1) none 1 ∧
    train (fun e => (fun _ : Fin 1 => -(e:ℚ))) true none (some 1) none 2 = some (false, 2) :=
  ⟨early_stopping_window.1 1 (fun _ => (fun _ => -1)) true (some 2) 1 none 1 (le_refl 1),
   early_stopping_window.2 1 (fun e => (fun _ => -(e:ℚ))) 1 none 2 (le_refl 1) (le_refl 2)
     (by
       intro e he _ hall
       have h0 := hall 0
       simp only at h0
       have h1 : (1:ℚ) ≤ (e:ℚ) := by exact_mod_cast he
       linarith)
     (by
       intro e he _
       show lossOf (fun _ : Fin 1 => -(e:ℚ)) < lossOf (fun _ : Fin 1 => -((e + 1 : ℕ):ℚ))
       rw [lossOf_constNeg ((e:ℕ):ℚ) (by positivity),
         lossOf_constNeg ((e + 1 : ℕ):ℚ) (by positivity)]
       push_cast
       linarith)⟩

/-- C8: in any iteration of the src/code/verifier.py train loop where
lr_scheduling = m is configured, at least m rising flags are in the sliding
window after this iteration's append, and the latest iteration's loss did not
improve (previous_loss = p ≤ loss), the loop continues with learning rate
max(lr / 2, 1e-4) — for every early-stopping configuration that does not stop
this iteration — and the updated rate never falls below the positive floor:
1e-4 ≤ max(lr / 2, 1e-4) and 0 < 1e-4. -/
theorem lr_scheduling_halves {d : ℕ} (oracle : ℕ → QVec d) (maxEpochs es : Option ℕ)
    (m cap fuel : ℕ) (s : TrainState) (p : ℚ)
    (hcap : 1 ≤ cap)
    (hw : whileCond maxEpochs s.epoch)
    (hnv : ¬ ∀ i, 0 < oracle s.epoch i)
    (hprev : s.prevLoss = some p)
    (hrise : p ≤ lossOf (oracle s.epoch))
    (hcnt : m ≤ (wpush cap s.window true).count true)
    (hes : ¬ esStop es ((wpush cap s.window true).count true)) :
    trainGo oracle true maxEpochs es (some m) cap (fuel + 1) s
      = trainGo oracle true maxEpochs es (some m) cap fuel
          ⟨s.epoch + 1, some (lossOf (oracle s.epoch)), wpush cap s.window true,
            max (s.lr / 2) lrFloor⟩ ∧
    lrFloor ≤ max (s.lr / 2) lrFloor ∧ (0:ℚ) < lrFloor := by
  refine ⟨?_, le_max_right _ _, by norm_num [lrFloor]⟩
  simp only [trainGo]
  rw [if_pos hw, if_neg hnv]
  rw [if_neg (by simp : ¬ (true = false))]
  have hflag : risingFlag s.prevLoss (lossOf (oracle s.epoch)) = true := by
    rw [hprev]
    simp [risingFlag, hrise]
  rw [hflag, if_neg hes]
  have hlast : (wpush cap s.window true).getLastD false = true :=
    wpush_getLastD cap hcap s.window true
  have hlr : lrStep (some m) ((wpush cap s.window true).count true)
      ((wpush cap s.window true).getLastD false) s.lr = max (s.lr / 2) lrFloor := by
    simp only [lrStep]
    rw [if_pos ⟨hcnt, hlast⟩]
  rw [hlr]

/-- Witness for `lr_scheduling_halves`: one iteration with lr_scheduling = 1,
a non-improving loss and learning rate 5 continues with rate max(5/2, 1e-4). -/
theorem lr_scheduling_halves_witness :
    trainGo (fun _ => (fun _ : Fin 1 => (-1:ℚ))) true none none (some 1) 2 1
        ⟨1, some 1, [], 5⟩
      = trainGo (fun _ => (fun _ : Fin 1 => (-1:ℚ))) true none none (some 1) 2 0
          ⟨1 + 1, some (lossOf (fun _ : Fin 1 => (-1:ℚ))), wpush 2 [] true,
            max ((5:ℚ) / 2) lrFloor⟩ ∧
    lrFloor ≤ max ((5:ℚ) / 2) lrFloor ∧ (0:ℚ) < lrFloor :=
  lr_scheduling_halves (fun _ => (fun _ => -1)) none none 1 2 0 ⟨1, some 1, [], 5⟩ 1
    (by norm_num) trivial
    (fun h => by have := h 0; norm_num at this)
    rfl
    (by
      show (1:ℚ) ≤ lossOf (fun _ : Fin 1 => (-1:ℚ))
      rw [show lossOf (fun _ : Fin 1 => (-1:ℚ)) = 1 from lossOf_constNeg 1 (by norm_num)])
    (by decide) (fun h => h)

/-- C9: the layer-dispatch loop of analyze raises the fatal error
"Unknown layer type <name>" — naming the offending kind — as soon as it meets
a layer kind that is not one of Flatten, Linear, ReLU, LeakyReLU, Conv2d, for
any recognized prefix and any suffix; and conversely every successful
construction contains recognized layers only, so an unknown layer is never
silently skipped, and the pure dispatch returns the error deterministically
with no retry. -/
theorem unknown_layer_fatal :
    (∀ (depth : ℕ) (pre : List LayerDesc) (name : String) (rest : List LayerDesc),
      (∀ l ∈ pre, l.recognized) →
      buildTransformers depth (pre ++ LayerDesc.Other name :: rest)
        = Except.error ("Unknown layer type " ++ name)) ∧
    (∀ (depth : ℕ) (ls : List LayerDesc) (ts : List TransformerTag),
      buildTransformers depth ls = Except.ok ts → ∀ l ∈ ls, l.recognized) := by
  constructor
  · intro depth pre
    induction pre generalizing depth with
    | nil => intro name rest _; rfl
    | cons l pre ih =>
      intro name rest hrec
      have hl := hrec l (List.mem_cons_self l pre)
      have hpre : ∀ x ∈ pre, x.recognized := fun x hx => hrec x (List.mem_cons_of_mem l hx)
      cases l with
      | Flatten => simp [buildTransformers, Except.map, ih (depth + 1) name rest hpre]
      | Linear => simp [buildTransformers, Except.map, ih (depth + 1) name rest hpre]
      | ReLU => simp [buildTransformers, Except.map, ih (depth + 1) name rest hpre]
      | LeakyReLU slope => simp [buildTransformers, Except.map, ih (depth + 1) name rest hpre]
      | Conv2d => simp [buildTransformers, Except.map, ih (depth + 1) name rest hpre]
      | Other nm => exact absurd hl (fun h => h)
  · intro depth ls
    induction ls generalizing depth with
    | nil => intro ts _ l hl; cases hl
    | cons l rest ih =>
      intro ts hok x hx
      cases hb : buildTransformers (depth + 1) rest with
      | error e =>
        exfalso
        cases l <;> simp [buildTransformers, hb, Except.map] at hok
      | ok ts2 =>
        rcases List.mem_cons.mp hx with rfl | hxr
        · cases x with
          | Other nm => simp [buildTransformers] at hok
          | Flatten => trivial
          | Linear => trivial
          | ReLU => trivial
          | LeakyReLU slope => trivial
          | Conv2d => trivial
        · exact ih (depth + 1) ts2 hb x hxr

/-- Witness for `unknown_layer_fatal`: a Linear layer followed by an unknown
Dropout layer aborts construction with the error naming Dropout, and the
successful construction for a single Flatten layer contains recognized
layers only. -/
theorem unknown_layer_fatal_witness :
    buildTransformers 0 ([LayerDesc.Linear] ++ LayerDesc.Other "Dropout" :: [])
      = Except.error ("Unknown layer type " ++ "Dropout") ∧
    ∀ l ∈ [LayerDesc.Flatten], l.recognized :=
  ⟨unknown_layer_fatal.1 0 [LayerDesc.Linear] "Dropout" [] (by decide),
   unknown_layer_fatal.2 0 [LayerDesc.Flatten] [TransformerTag.flattenT] rfl⟩
